import Mathlib

/-!
Shallow embedding of `pfx` (src/pfx/main.py), a tool that layers
program/version directories into a personal prefix via an overlay mount.

The embedding models:
* the catalog scan (`Program.all_programs`),
* the persisted configuration and its JSON round trip (`pfx_config`),
* the layer resolution loop and mount-command construction (`remount`),
* the mutating CLI commands (`install`, `uninstall`, `set`, `unset`)
  as event-trace producing functions.

Python strings are Lean `String`s; `str.split("|")` is re-implemented
structurally over `List Char` (Lean's `String.splitOn` does not reduce in
the kernel); Python `dict` is an association list with unique keys in
insertion order; Python `set` is a list considered up to membership.
-/

/-- Embedding of Python `s.split("|")` for the one-character separator `"|"`:
splits on every occurrence, keeping empty components. -/
def splitOnBar : List Char → List (List Char)
  | [] => [[]]
  | c :: cs =>
    if c = '|' then [] :: splitOnBar cs
    else
      match splitOnBar cs with
      | [] => [[c]]
      | s :: ss => (c :: s) :: ss

/-- `s.split("|")` on a Lean `String`, components as `String`s. -/
def splitBar (s : String) : List String :=
  (splitOnBar s.toList).map (fun cs => String.mk cs)

/-- Lexicographic comparison of char lists by code point, embedding Python's
string ordering used by `sorted`. -/
def charListLe : List Char → List Char → Bool
  | [], _ => true
  | _ :: _, [] => false
  | c :: cs, d :: ds => if c = d then charListLe cs ds else decide (c < d)

/-- String comparison used by the catalog sort. -/
def strLe (s t : String) : Bool := charListLe s.toList t.toList

/-- Stable insertion into a sorted list. -/
def insertSorted (s : String) : List String → List String
  | [] => [s]
  | t :: ts => if strLe t s then t :: insertSorted s ts else s :: t :: ts

/-- Embedding of Python `sorted` on a list of strings. -/
def insertionSort : List String → List String
  | [] => []
  | s :: ss => insertSorted s (insertionSort ss)

/-- Embedding of Python `name.startswith(".")`. -/
def startsWithDot (s : String) : Bool :=
  match s.toList with
  | [] => false
  | c :: _ => c = '.'

/-- `pfx_path_lower`: the dummy lower directory `pfx_home / ".lower"`. -/
def pfx_path_lower (pfxHome : String) : String := pfxHome ++ "/.lower"

/-- `pfx_path_work`: the temporary working directory `pfx_home / ".work"`. -/
def pfx_path_work (pfxHome : String) : String := pfxHome ++ "/.work"

/-- The installation prefix `pfx_home / ".prefix"` (`pfx_path_prefix` in the
source; renamed here to keep Lean identifier conventions). -/
def pfx_prefix_path (pfxHome : String) : String := pfxHome ++ "/.prefix"

/-- `Program`: abstract representation of an installed program
(dataclass `Program` in the source). -/
structure Program where
  name : String
  version : String
  path : String
deriving DecidableEq, Repr

/-- `Program.from_name_version`: build a program entry from name/version;
the path is `pfx_home / f"{name}|{version}"`. -/
def Program.from_name_version (pfxHome name version : String) : Program :=
  ⟨name, version, pfxHome ++ "/" ++ name ++ "|" ++ version⟩

/-- One step of the loop body of `Program.all_programs`: directory names
starting with `.` are skipped; every other name is unpacked by
`name, version = program_dir.name.split("|")`, which raises `ValueError`
(modelled as `Except.error`) unless the split has exactly two components. -/
def scanDirs (pfxHome : String) : List String → Except String (List Program)
  | [] => .ok []
  | d :: rest =>
    if startsWithDot d then scanDirs pfxHome rest
    else
      match splitBar d with
      | [n, v] =>
        match scanDirs pfxHome rest with
        | .ok ps => .ok (⟨n, v, pfxHome ++ "/" ++ d⟩ :: ps)
        | .error e => .error e
      | _ => .error d

/-- `Program.all_programs`: the immediate subdirectory names of the home
directory are sorted (Python sorts the full paths `pfx_home / d`; with the
common prefix fixed this is the lexicographic order of the names), then
scanned by `scanDirs`. -/
def all_programs (pfxHome : String) (dirs : List String) :
    Except String (List Program) :=
  scanDirs pfxHome (insertionSort dirs)

/-- `PfxConfig`: persisted user intent. `overrides` embeds the Python dict
(association list, unique keys, insertion order); `excluded` embeds the
Python set (a list considered up to membership). -/
structure PfxConfig where
  overrides : List (String × String)
  excluded : List String
deriving DecidableEq, Repr

/-- The JSON-shaped on-disk configuration record:
`{"overrides": {...}, "excluded": [...]}`. -/
structure JsonConfig where
  overrides : List (String × String)
  excluded : List String
deriving DecidableEq, Repr

/-- Python `set.add`: membership-preserving insert. -/
def setAdd (l : List String) (s : String) : List String :=
  if l.contains s then l else l ++ [s]

/-- Python `set(list)`: collect the elements, dropping duplicates. -/
def setOfList (l : List String) : List String := l.foldl setAdd []

/-- Python `set.discard`: remove an element if present. -/
def setDiscard (l : List String) (s : String) : List String :=
  l.filter (fun t => t ≠ s)

/-- Python dict assignment `d[k] = v`: replace in place or append. -/
def dictSet (d : List (String × String)) (k v : String) :
    List (String × String) :=
  if (d.lookup k).isSome
  then d.map (fun kv => if kv.1 == k then (k, v) else kv)
  else d ++ [(k, v)]

/-- Python `dict.pop(k)` after a membership check: drop the binding of `k`. -/
def dictPop (d : List (String × String)) (k : String) :
    List (String × String) :=
  d.eraseP (fun kv => kv.1 == k)

/-- The load half of the `pfx_config` context manager: an existing record
yields `PfxConfig(overrides, set(excluded))`. -/
def loadConfig (j : JsonConfig) : PfxConfig :=
  ⟨j.overrides, setOfList j.excluded⟩

/-- The save half of the `pfx_config` context manager:
`json.dump({"overrides": cfg.overrides, "excluded": list(cfg.excluded)})`. -/
def saveConfig (c : PfxConfig) : JsonConfig :=
  ⟨c.overrides, c.excluded⟩

/-- The skip conditions of the `remount` resolution loop applied to one
catalog entry, in source order: the upper check, the duplicate-name check
against the already chosen map, the exclusion check, the override check.
The surviving entry is appended (dict insertion order). -/
def resolveStep (config : PfxConfig) (upper : Option Program)
    (chosen : List Program) (p : Program) : List Program :=
  if (match upper with | some u => u.name == p.name | none => false) then chosen
  else if chosen.any (fun q => q.name == p.name) then chosen
  else if config.excluded.contains p.name then chosen
  else if (match config.overrides.lookup p.name with
           | some v => p.version != v
           | none => false) then chosen
  else chosen ++ [p]

/-- The lower-layer resolution loop of `remount`: a single pass over the
catalog in scan order, building the `lower` map in insertion order. -/
def resolveLower (catalog : List Program) (config : PfxConfig)
    (upper : Option Program) : List Program :=
  catalog.foldl (resolveStep config upper) []

/-- Embedding of Python `":".join(l)`. -/
def colonJoin : List String → String
  | [] => ""
  | [s] => s
  | s :: rest => s ++ ":" ++ colonJoin rest

/-- The mount command `remount` assembles for `fuse-overlayfs`:
`-o lowerdir=` with the colon-joined dummy lower directory followed by the
chosen programs' paths, the optional `-o upperdir=`/`-o workdir=` pair,
and the prefix target. -/
def mountCommand (pfxHome : String) (lower : List Program)
    (upper : Option Program) : List String :=
  let lowerDirs := [pfx_path_lower pfxHome] ++ lower.map (fun p => p.path)
  let lowerArg := colonJoin lowerDirs
  let base := ["fuse-overlayfs", "-o", "lowerdir=" ++ lowerArg]
  let withUpper :=
    match upper with
    | some u => base ++ ["-o", "upperdir=" ++ u.path,
                          "-o", "workdir=" ++ pfx_path_work pfxHome]
    | none => base
  withUpper ++ [pfx_prefix_path pfxHome]

/-- One `subprocess.run(cmd, check=...)` call. -/
structure ProcCall where
  cmd : List String
  check : Bool
deriving DecidableEq, Repr

/-- The two subprocess invocations `remount` performs, in order: the
best-effort `fusermount -u` (check=False), then the mount (check=True). -/
def remountCalls (pfxHome : String) (catalog : List Program)
    (config : PfxConfig) (upper : Option Program) : List ProcCall :=
  [ ⟨["fusermount", "-u", pfx_prefix_path pfxHome], false⟩,
    ⟨mountCommand pfxHome (resolveLower catalog config upper) upper, true⟩ ]

/-- Execution of a sequence of subprocess calls against an oracle `fails`
giving each command's exit status: `check=True` turns a failure into an
exception (`CalledProcessError`), `check=False` ignores it. -/
def runCalls (fails : List String → Bool) : List ProcCall → Except (List String) Unit
  | [] => .ok ()
  | c :: rest =>
    if c.check && fails c.cmd then .error c.cmd else runCalls fails rest

/-- Observable effects of one CLI invocation: a remount of the prefix
(recording the home, the recomputed lower layer sequence and the optional
upper program) and a write of the configuration file. -/
inductive Event where
  | remountEv (pfxHome : String) (lower : List Program) (upper : Option Program)
  | saveEv (file : JsonConfig)
deriving DecidableEq, Repr

/-- Is the event a remount? -/
def Event.isRemount : Event → Bool
  | .remountEv _ _ _ => true
  | _ => false

/-- Is the event a configuration save? -/
def Event.isSave : Event → Bool
  | .saveEv _ => true
  | _ => false

/-- Loading inside `pfx_config`: a missing file yields the empty record. -/
def pfx_config_load (file : Option JsonConfig) : PfxConfig :=
  match file with
  | some j => loadConfig j
  | none => ⟨[], []⟩

/-- The `pfx_config` context manager: load, run the body, and write the
configuration back exactly once on normal exit. When the body raises
(`Except.error`), the code after `yield` never runs, so no save happens. -/
def withPfxConfig (file : Option JsonConfig)
    (body : PfxConfig → Except String (PfxConfig × List Event)) :
    Except String (List Event) :=
  match body (pfx_config_load file) with
  | .ok (cfg, evs) => .ok (evs ++ [Event.saveEv (saveConfig cfg)])
  | .error e => .error e

/-- The `install` command: build the intended program (the `mkdir` of its
directory is a filesystem effect outside the model) and remount with it as
the upper layer; the config is not mutated. `catalog` is the successful
catalog scan `remount` performs. -/
def installCmd (pfxHome : String) (catalog : List Program)
    (file : Option JsonConfig) (program version : String) :
    Except String (List Event) :=
  withPfxConfig file (fun config =>
    let intended := Program.from_name_version pfxHome program version
    .ok (config,
      [Event.remountEv pfxHome (resolveLower catalog config (some intended))
        (some intended)]))

/-- The `uninstall` command: check the program exists in the catalog
(else `RuntimeError`), then pop any override and add the name to the
excluded set. -/
def uninstallCmd (pfxHome : String) (catalog : List Program)
    (file : Option JsonConfig) (program : String) :
    Except String (List Event) :=
  if catalog.any (fun p => p.name == program) then
    withPfxConfig file (fun config =>
      let config1 :=
        if (config.overrides.lookup program).isSome
        then { config with overrides := dictPop config.overrides program }
        else config
      let config2 := { config1 with excluded := setAdd config1.excluded program }
      .ok (config2, []))
  else .error ("Unable to find program; name=" ++ program)

/-- The `set` command: check the program/version exists in the catalog
(else `RuntimeError`), then discard the name from the excluded set, pin the
override, and remount. -/
def setCmd (pfxHome : String) (catalog : List Program)
    (file : Option JsonConfig) (program version : String) :
    Except String (List Event) :=
  if catalog.any (fun p => p.name == program && p.version == version) then
    withPfxConfig file (fun config =>
      let config1 := { config with excluded := setDiscard config.excluded program }
      let config2 := { config1 with overrides := dictSet config1.overrides program version }
      .ok (config2, [Event.remountEv pfxHome (resolveLower catalog config2 none) none]))
  else .error ("Unable to find program; name=" ++ program ++ ", version=" ++ version)

/-- The `unset` command: `del config.overrides[program]` raises `KeyError`
when the name has no override; otherwise drop the override and remount. -/
def unsetCmd (pfxHome : String) (catalog : List Program)
    (file : Option JsonConfig) (program : String) :
    Except String (List Event) :=
  withPfxConfig file (fun config =>
    if (config.overrides.lookup program).isSome then
      let config1 := { config with overrides := dictPop config.overrides program }
      .ok (config1, [Event.remountEv pfxHome (resolveLower catalog config1 none) none])
    else .error ("KeyError: " ++ program))

/-- The conjunction of the `remount` loop's pass conditions that depend only
on the entry itself (not on what was already chosen): the upper check, the
exclusion check and the override check, in source order. -/
def passes (config : PfxConfig) (upper : Option Program) (p : Program) : Bool :=
  !(match upper with | some u => u.name == p.name | none => false) &&
  !(config.excluded.contains p.name) &&
  !(match config.overrides.lookup p.name with
    | some v => p.version != v
    | none => false)

/-- Proof-side recursion of the resolution loop: the set of names already
chosen is carried explicitly. -/
def resolveFrom (config : PfxConfig) (upper : Option Program)
    (seen : List String) : List Program → List Program
  | [] => []
  | p :: ps =>
    if passes config upper p = true ∧ p.name ∉ seen
    then p :: resolveFrom config upper (p.name :: seen) ps
    else resolveFrom config upper seen ps

/-- Keep the first entry of each name, dropping later entries with the same
name (the specification's "first occurrence in catalog order wins"). -/
def dedupByName : List Program → List Program
  | [] => []
  | p :: ps => p :: dedupByName (ps.filter (fun q => q.name ≠ p.name))
termination_by l => l.length
decreasing_by
  simpa using Nat.lt_succ_of_le (List.length_filter_le _ _)

example : splitBar "a|b" = ["a", "b"] := by decide
example : splitBar "a|" = ["a", ""] := by decide
example : splitBar "ab" = ["ab"] := by decide
example : splitBar "a|b|c" = ["a", "b", "c"] := by decide
example : all_programs "h" ["b|2", "a|1"] =
    .ok [⟨"a", "1", "h/a|1"⟩, ⟨"b", "2", "h/b|2"⟩] := rfl
example : all_programs "h" [".lower", "a|1"] = .ok [⟨"a", "1", "h/a|1"⟩] := rfl
example : all_programs "h" ["ab"] = .error "ab" := rfl
example :
    resolveLower [⟨"A", "1", "pA1"⟩, ⟨"A", "2", "pA2"⟩, ⟨"B", "1", "pB1"⟩]
      ⟨[("A", "2")], []⟩ none = [⟨"A", "2", "pA2"⟩, ⟨"B", "1", "pB1"⟩] := rfl
example : resolveLower [⟨"A", "1", "pA1"⟩] ⟨[], ["A"]⟩ none = [] := rfl
example :
    resolveLower [⟨"A", "1", "pA1"⟩, ⟨"B", "1", "pB1"⟩] ⟨[], []⟩
      (some ⟨"A", "2", "pA2"⟩) = [⟨"B", "1", "pB1"⟩] := rfl

theorem resolveStep_eq (config : PfxConfig) (upper : Option Program)
    (chosen : List Program) (p : Program) :
    resolveStep config upper chosen p =
      if passes config upper p = true ∧ p.name ∉ chosen.map Program.name
      then chosen ++ [p] else chosen := by
  have hmem : (chosen.any (fun q => q.name == p.name)) = true ↔
      p.name ∈ chosen.map Program.name := by
    simp only [List.any_eq_true, List.mem_map, beq_iff_eq]
  unfold resolveStep passes
  cases h1 : (match upper with | some u => u.name == p.name | none => false) <;>
    cases h2 : chosen.any (fun q => q.name == p.name) <;>
      cases h3 : config.excluded.contains p.name <;>
        cases h4 : (match config.overrides.lookup p.name with
          | some v => p.version != v | none => false) <;>
    simp_all

theorem resolveFrom_congr (config : PfxConfig) (upper : Option Program) :
    ∀ (catalog : List Program) (seen₁ seen₂ : List String),
      (∀ x, x ∈ seen₁ ↔ x ∈ seen₂) →
      resolveFrom config upper seen₁ catalog = resolveFrom config upper seen₂ catalog := by
  intro catalog
  induction catalog with
  | nil => intro _ _ _; rfl
  | cons p ps ih =>
    intro seen₁ seen₂ h
    by_cases hc : passes config upper p = true ∧ p.name ∉ seen₁
    · have hc₂ : passes config upper p = true ∧ p.name ∉ seen₂ :=
        ⟨hc.1, fun hx => hc.2 ((h p.name).mpr hx)⟩
      simp only [resolveFrom, if_pos hc, if_pos hc₂]
      have : ∀ x, x ∈ p.name :: seen₁ ↔ x ∈ p.name :: seen₂ := by
        intro x
        simp only [List.mem_cons]
        exact or_congr Iff.rfl (h x)
      rw [ih _ _ this]
    · have hc₂ : ¬(passes config upper p = true ∧ p.name ∉ seen₂) := by
        intro hx
        exact hc ⟨hx.1, fun hmem => hx.2 ((h p.name).mp hmem)⟩
      simp only [resolveFrom, if_neg hc, if_neg hc₂]
      exact ih _ _ h

theorem foldl_resolveStep (config : PfxConfig) (upper : Option Program) :
    ∀ (catalog : List Program) (acc : List Program),
      catalog.foldl (resolveStep config upper) acc
        = acc ++ resolveFrom config upper (acc.map Program.name) catalog := by
  intro catalog
  induction catalog with
  | nil => intro acc; simp [resolveFrom]
  | cons p ps ih =>
    intro acc
    rw [List.foldl_cons, resolveStep_eq]
    by_cases hc : passes config upper p = true ∧ p.name ∉ acc.map Program.name
    · rw [if_pos hc, ih]
      have hseen : ∀ x, x ∈ (acc ++ [p]).map Program.name ↔
          x ∈ p.name :: acc.map Program.name := by
        intro x
        simp only [List.map_append, List.map_cons, List.map_nil, List.mem_append,
          List.mem_cons, List.mem_singleton, List.not_mem_nil, or_false]
        exact Or.comm
      rw [resolveFrom_congr config upper ps _ _ hseen]
      simp only [resolveFrom, if_pos hc]
      simp
    · rw [if_neg hc, ih]
      simp only [resolveFrom, if_neg hc]

theorem resolveLower_eq_resolveFrom (catalog : List Program) (config : PfxConfig)
    (upper : Option Program) :
    resolveLower catalog config upper = resolveFrom config upper [] catalog := by
  simpa using foldl_resolveStep config upper catalog []

theorem mem_resolveFrom (config : PfxConfig) (upper : Option Program) :
    ∀ (catalog : List Program) (seen : List String) (q : Program),
      q ∈ resolveFrom config upper seen catalog →
      q ∈ catalog ∧ passes config upper q = true ∧ q.name ∉ seen := by
  intro catalog
  induction catalog with
  | nil => intro seen q h; simp [resolveFrom] at h
  | cons p ps ih =>
    intro seen q h
    by_cases hc : passes config upper p = true ∧ p.name ∉ seen
    · rw [resolveFrom, if_pos hc] at h
      rcases List.mem_cons.mp h with rfl | htail
      · exact ⟨List.mem_cons_self _ _, hc.1, hc.2⟩
      · obtain ⟨hmem, hp, hseen⟩ := ih _ _ htail
        exact ⟨List.mem_cons_of_mem _ hmem, hp,
          fun hx => hseen (List.mem_cons_of_mem _ hx)⟩
    · rw [resolveFrom, if_neg hc] at h
      obtain ⟨hmem, hp, hseen⟩ := ih _ _ h
      exact ⟨List.mem_cons_of_mem _ hmem, hp, hseen⟩

theorem resolveFrom_pairwise (config : PfxConfig) (upper : Option Program) :
    ∀ (catalog : List Program) (seen : List String),
      (resolveFrom config upper seen catalog).Pairwise (fun a b => a.name ≠ b.name) := by
  intro catalog
  induction catalog with
  | nil => intro seen; simp [resolveFrom]
  | cons p ps ih =>
    intro seen
    by_cases hc : passes config upper p = true ∧ p.name ∉ seen
    · rw [resolveFrom, if_pos hc]
      refine List.Pairwise.cons ?_ (ih _)
      intro b hb
      have := (mem_resolveFrom config upper ps _ b hb).2.2
      intro heq
      exact this (heq ▸ List.mem_cons_self _ _)
    · rw [resolveFrom, if_neg hc]
      exact ih _

theorem resolveFrom_sublist (config : PfxConfig) (upper : Option Program) :
    ∀ (catalog : List Program) (seen : List String),
      (resolveFrom config upper seen catalog).Sublist catalog := by
  intro catalog
  induction catalog with
  | nil => intro seen; simp [resolveFrom]
  | cons p ps ih =>
    intro seen
    by_cases hc : passes config upper p = true ∧ p.name ∉ seen
    · rw [resolveFrom, if_pos hc]
      exact (ih _).cons₂ p
    · rw [resolveFrom, if_neg hc]
      exact (ih _).cons p

theorem resolveFrom_eq_dedup (config : PfxConfig) (upper : Option Program) :
    ∀ (catalog : List Program) (seen : List String),
      resolveFrom config upper seen catalog
        = dedupByName ((catalog.filter (fun p => passes config upper p)).filter
            (fun p => decide (p.name ∉ seen))) := by
  intro catalog
  induction catalog with
  | nil => intro seen; simp [resolveFrom, dedupByName]
  | cons p ps ih =>
    intro seen
    by_cases hp : passes config upper p = true
    · by_cases hs : p.name ∉ seen
      · rw [resolveFrom, if_pos ⟨hp, hs⟩]
        rw [List.filter_cons_of_pos hp, List.filter_cons_of_pos (by simpa using hs)]
        rw [dedupByName]
        congr 1
        rw [ih (p.name :: seen)]
        simp only [List.filter_filter]
        congr 1
        apply List.filter_congr
        intro q _
        by_cases hq : q.name = p.name <;> by_cases hq2 : q.name ∈ seen <;>
          simp [List.mem_cons, hq, hq2]
      · rw [resolveFrom, if_neg (fun h => hs h.2)]
        rw [List.filter_cons_of_pos hp, List.filter_cons_of_neg (by simpa using hs)]
        exact ih seen
    · rw [resolveFrom, if_neg (fun h => hp h.1)]
      rw [List.filter_cons_of_neg (by simpa using hp)]
      exact ih seen

theorem resolveFrom_exists_name (config : PfxConfig) (upper : Option Program) :
    ∀ (catalog : List Program) (seen : List String) (n : String),
      (∃ p ∈ catalog, p.name = n ∧ passes config upper p = true) →
      n ∉ seen →
      ∃ q ∈ resolveFrom config upper seen catalog, q.name = n := by
  intro catalog
  induction catalog with
  | nil =>
    intro seen n h _
    obtain ⟨p, hp, _⟩ := h
    exact absurd hp (List.not_mem_nil p)
  | cons p ps ih =>
    intro seen n h hn
    by_cases hc : passes config upper p = true ∧ p.name ∉ seen
    · rw [resolveFrom, if_pos hc]
      by_cases hpn : p.name = n
      · exact ⟨p, List.mem_cons_self _ _, hpn⟩
      · obtain ⟨w, hw, hwn, hwp⟩ := h
        rcases List.mem_cons.mp hw with rfl | hw'
        · exact absurd hwn hpn
        · have hn' : n ∉ p.name :: seen := by
            simp only [List.mem_cons]
            rintro (h' | h')
            · exact hpn h'.symm
            · exact hn h'
          obtain ⟨q, hq, hqn⟩ := ih (p.name :: seen) n ⟨w, hw', hwn, hwp⟩ hn'
          exact ⟨q, List.mem_cons_of_mem _ hq, hqn⟩
    · rw [resolveFrom, if_neg hc]
      obtain ⟨w, hw, hwn, hwp⟩ := h
      rcases List.mem_cons.mp hw with rfl | hw'
      · have hmem : w.name ∈ seen := by
          by_contra hmem
          exact hc ⟨hwp, hmem⟩
        exact absurd (hwn ▸ hmem) hn
      · exact ih seen n ⟨w, hw', hwn, hwp⟩ hn

theorem insertSorted_perm (s : String) (l : List String) :
    (insertSorted s l).Perm (s :: l) := by
  induction l with
  | nil => exact List.Perm.refl _
  | cons t ts ih =>
    rw [insertSorted]
    by_cases h : strLe t s = true
    · rw [if_pos h]
      exact (ih.cons t).trans (List.Perm.swap s t ts)
    · rw [if_neg h]

theorem insertionSort_perm (l : List String) : (insertionSort l).Perm l := by
  induction l with
  | nil => exact List.Perm.refl _
  | cons s ss ih =>
    exact (insertSorted_perm s (insertionSort ss)).trans (ih.cons s)

theorem all_insertionSort (p : String → Bool) (l : List String) :
    (insertionSort l).all p = l.all p := by
  apply Bool.eq_iff_iff.mpr
  simp only [List.all_eq_true]
  constructor
  · intro hall x hx
    exact hall x ((insertionSort_perm l).mem_iff.mpr hx)
  · intro hall x hx
    exact hall x ((insertionSort_perm l).mem_iff.mp hx)

theorem scanDirs_isOk (pfxHome : String) :
    ∀ (dirs : List String),
      (scanDirs pfxHome dirs).isOk
        = dirs.all (fun d => startsWithDot d || (splitBar d).length == 2) := by
  intro dirs
  induction dirs with
  | nil => rfl
  | cons d rest ih =>
    by_cases hd : startsWithDot d = true
    · simp [scanDirs, hd, ih]
    · have hd' : startsWithDot d = false := by
        cases h : startsWithDot d
        · rfl
        · exact absurd h hd
      rcases hsplit : splitBar d with _ | ⟨n, _ | ⟨v, _ | _⟩⟩
      · simp [scanDirs, hd', hsplit, ih, Except.isOk, Except.toBool]
      · simp [scanDirs, hd', hsplit, ih, Except.isOk, Except.toBool]
      · cases h : scanDirs pfxHome rest with
        | ok ps => simp_all [scanDirs, hd', hsplit, Except.isOk, Except.toBool]
        | error e => simp_all [scanDirs, hd', hsplit, Except.isOk, Except.toBool]
      · simp [scanDirs, hd', hsplit, ih, Except.isOk, Except.toBool]

theorem setOfList_mem (x : String) : ∀ (l acc : List String),
    (x ∈ l.foldl setAdd acc) ↔ (x ∈ acc ∨ x ∈ l) := by
  intro l
  induction l with
  | nil => intro acc; simp
  | cons s ss ih =>
    intro acc
    rw [List.foldl_cons, ih]
    unfold setAdd
    by_cases hs : acc.contains s = true
    · rw [if_pos hs]
      have hsm : s ∈ acc := by simpa using hs
      constructor
      · rintro (h | h)
        · exact Or.inl h
        · exact Or.inr (List.mem_cons_of_mem _ h)
      · rintro (h | h)
        · exact Or.inl h
        · rcases List.mem_cons.mp h with rfl | h'
          · exact Or.inl hsm
          · exact Or.inr h'
    · rw [if_neg hs]
      simp only [List.mem_append, List.mem_singleton, List.mem_cons]
      tauto

theorem colonJoin_cons (x : String) (xs : List String) :
    ∃ r, colonJoin (x :: xs) = x ++ r := by
  cases xs with
  | nil => exact ⟨"", (String.append_empty x).symm⟩
  | cons y ys =>
    refine ⟨":" ++ colonJoin (y :: ys), ?_⟩
    show x ++ ":" ++ colonJoin (y :: ys) = x ++ (":" ++ colonJoin (y :: ys))
    rw [String.append_assoc]

/-- C4: for all catalog, config and upper inputs the resolved lower sequence
has no two entries with equal name; it equals the passing catalog entries in
catalog-scan order with only the first occurrence of each name kept
(first-occurrence-wins tie-break); and it is a sublist of the catalog, so
catalog-scan (insertion) order is preserved. -/
theorem C4_at_most_one_per_name (catalog : List Program) (config : PfxConfig)
    (upper : Option Program) :
    (resolveLower catalog config upper).Pairwise (fun p q => p.name ≠ q.name)
    ∧ resolveLower catalog config upper
        = dedupByName (catalog.filter (fun p => passes config upper p))
    ∧ (resolveLower catalog config upper).Sublist catalog := by
  refine ⟨?_, ?_, ?_⟩
  · rw [resolveLower_eq_resolveFrom]
    exact resolveFrom_pairwise config upper catalog []
  · rw [resolveLower_eq_resolveFrom, resolveFrom_eq_dedup]
    congr 1
    simp
  · rw [resolveLower_eq_resolveFrom]
    exact resolveFrom_sublist config upper catalog []

/-- C5: a name present in both the excluded set and the overrides map never
appears in the resolved lower sequence — exclusion dominates override. -/
theorem C5_exclusion_dominance (catalog : List Program) (config : PfxConfig)
    (upper : Option Program) (n : String) (p : Program)
    (hex : n ∈ config.excluded)
    (hov : ((config.overrides.lookup n).isSome) = true)
    (hp : p ∈ resolveLower catalog config upper) :
    p.name ≠ n := by
  intro heq
  rw [resolveLower_eq_resolveFrom] at hp
  have hpass := (mem_resolveFrom config upper catalog [] p hp).2.1
  simp only [passes, Bool.and_eq_true, Bool.not_eq_true'] at hpass
  have hcont := hpass.1.2
  rw [heq] at hcont
  have hcont' : n ∉ config.excluded := by simpa using hcont
  exact hcont' hex

/-- C6: when an upper program is supplied, no entry of the resolved lower
sequence carries the upper program's name. -/
theorem C6_upper_exclusivity (catalog : List Program) (config : PfxConfig)
    (u p : Program)
    (hp : p ∈ resolveLower catalog config (some u)) :
    p.name ≠ u.name := by
  intro heq
  rw [resolveLower_eq_resolveFrom] at hp
  have hpass := (mem_resolveFrom config (some u) catalog [] p hp).2.1
  simp only [passes, Bool.and_eq_true, Bool.not_eq_true'] at hpass
  have hu := hpass.1.1
  rw [heq] at hu
  simp at hu

/-- C1 (counterexample): the claim "if `n ∈ overrides` with pinned version
`v` and a catalog entry `(n, v)` exists, the resolver chooses exactly that
entry for `n`" fails as a universal statement over all configs and uppers:
with `overrides = {A: "1"}` and catalog entry `(A, 1)`, excluding `A` (first
conjunct) or installing `A` as the upper program (second conjunct) leaves
the lower sequence empty, so no entry is chosen for `A`. -/
theorem C1_counterexample :
    ((⟨[("A", "1")], ["A"]⟩ : PfxConfig).overrides.lookup "A" = some "1"
      ∧ (⟨"A", "1", "pA1"⟩ : Program) ∈ [(⟨"A", "1", "pA1"⟩ : Program)]
      ∧ resolveLower [⟨"A", "1", "pA1"⟩] ⟨[("A", "1")], ["A"]⟩ none = [])
    ∧ ((⟨[("A", "1")], []⟩ : PfxConfig).overrides.lookup "A" = some "1"
      ∧ resolveLower [⟨"A", "1", "pA1"⟩] ⟨[("A", "1")], []⟩
          (some ⟨"A", "2", "x"⟩) = []) := by
  exact ⟨⟨rfl, by decide, rfl⟩, rfl, rfl⟩

/-- C1 (amended): if `n` has pinned version `v` in the overrides, a catalog
entry with name `n` and version `v` exists, `n` is not excluded, and the
upper program (when present) is not named `n`, then the resolver chooses an
entry named `n` with version `v` for the lower sequence, and every chosen
entry named `n` has version `v` (no other version of `n` is chosen —
this last part holds even without the extra hypotheses). -/
theorem C1_override_selection (catalog : List Program) (config : PfxConfig)
    (upper : Option Program) (n v : String)
    (hov : config.overrides.lookup n = some v)
    (hcat : ∃ p ∈ catalog, p.name = n ∧ p.version = v)
    (hex : n ∉ config.excluded)
    (hup : ∀ u, upper = some u → u.name ≠ n) :
    (∃ q ∈ resolveLower catalog config upper, q.name = n ∧ q.version = v)
    ∧ ∀ q ∈ resolveLower catalog config upper, q.name = n → q.version = v := by
  have hall : ∀ q ∈ resolveLower catalog config upper, q.name = n → q.version = v := by
    intro q hq hqn
    rw [resolveLower_eq_resolveFrom] at hq
    have hpass := (mem_resolveFrom config upper catalog [] q hq).2.1
    simp only [passes, Bool.and_eq_true, Bool.not_eq_true'] at hpass
    have hov' := hpass.2
    rw [hqn, hov] at hov'
    simpa using hov'
  refine ⟨?_, hall⟩
  obtain ⟨p, hp, hpn, hpv⟩ := hcat
  have hpass : passes config upper p = true := by
    unfold passes
    simp only [Bool.and_eq_true, Bool.not_eq_true']
    refine ⟨⟨?_, ?_⟩, ?_⟩
    · cases upper with
      | none => rfl
      | some u =>
        have hu := hup u rfl
        show (u.name == p.name) = false
        rw [hpn]
        simpa using hu
    · rw [hpn]
      simpa using hex
    · rw [hpn, hov]
      simp [hpv]
  obtain ⟨q, hq, hqn⟩ := resolveFrom_exists_name config upper catalog [] n
    ⟨p, hp, hpn, hpass⟩ (List.not_mem_nil n)
  rw [← resolveLower_eq_resolveFrom] at hq
  exact ⟨q, hq, hqn, hall q hq hqn⟩

/-- C1 (witness): the specification's example scenario — catalog
`[(A,1), (A,2), (B,1)]`, overrides `{A: "2"}`, nothing excluded, no upper
— instantiates the amended override-selection theorem; moreover the full
resolved lower sequence is exactly `[(A,2), (B,1)]`. -/
theorem C1_override_selection_witness :
    ((⟨[("A", "2")], []⟩ : PfxConfig).overrides.lookup "A" = some "2"
      ∧ (∃ p ∈ [(⟨"A", "1", "pA1"⟩ : Program), ⟨"A", "2", "pA2"⟩, ⟨"B", "1", "pB1"⟩],
          p.name = "A" ∧ p.version = "2")
      ∧ "A" ∉ (⟨[("A", "2")], []⟩ : PfxConfig).excluded)
    ∧ ((∃ q ∈ resolveLower [(⟨"A", "1", "pA1"⟩ : Program), ⟨"A", "2", "pA2"⟩, ⟨"B", "1", "pB1"⟩]
            ⟨[("A", "2")], []⟩ none, q.name = "A" ∧ q.version = "2")
      ∧ ∀ q ∈ resolveLower [(⟨"A", "1", "pA1"⟩ : Program), ⟨"A", "2", "pA2"⟩, ⟨"B", "1", "pB1"⟩]
            ⟨[("A", "2")], []⟩ none, q.name = "A" → q.version = "2")
    ∧ resolveLower [(⟨"A", "1", "pA1"⟩ : Program), ⟨"A", "2", "pA2"⟩, ⟨"B", "1", "pB1"⟩]
        ⟨[("A", "2")], []⟩ none = [⟨"A", "2", "pA2"⟩, ⟨"B", "1", "pB1"⟩] :=
  ⟨⟨rfl, by decide, by decide⟩,
    C1_override_selection _ _ none "A" "2" rfl (by decide) (by decide)
      (fun u h => nomatch h),
    rfl⟩

/-- C2: the claim that every mutating command remounts the prefix before the
configuration is saved is violated by `uninstall`: on a catalog containing
`(A, 1)`, `uninstall A` writes the updated configuration (with `A` added to
the excluded set) but its event trace contains no remount at all, although
the command's own docstring says "Disable a program and remount the prefix
with it removed". The save still happens exactly once. -/
theorem C2_uninstall_skips_remount :
    uninstallCmd "h" [⟨"A", "1", "h/A|1"⟩] (some ⟨[], []⟩) "A"
        = .ok [Event.saveEv ⟨[], ["A"]⟩]
    ∧ [Event.saveEv (⟨[], ["A"]⟩ : JsonConfig)].countP Event.isRemount = 0
    ∧ [Event.saveEv (⟨[], ["A"]⟩ : JsonConfig)].countP Event.isSave = 1 :=
  ⟨rfl, rfl, rfl⟩

/-- C3 (counterexample): the claim that a Program is yielded only for names
splitting into exactly two NON-EMPTY components fails: the directory name
`"a|"` has an empty version component, yet the scan yields
`Program("a", "", ...)` instead of a malformed-catalog error. -/
theorem C3_counterexample :
    startsWithDot "a|" = false
    ∧ scanDirs "h" ["a|"] = .ok [⟨"a", "", "h/a|"⟩]
    ∧ splitBar "a|" = ["a", ""]
    ∧ ¬(∃ n v, n ≠ "" ∧ v ≠ "" ∧ splitBar "a|" = [n, v]) := by
  refine ⟨rfl, rfl, rfl, ?_⟩
  rintro ⟨n, v, hn, hv, h⟩
  have h' : (["a", ""] : List String) = [n, v] := by
    rw [← h]; rfl
  simp only [List.cons.injEq, List.cons_ne_nil, and_true] at h'
  exact hv h'.2.symm

/-- C3 (amended): the catalog scan succeeds iff every directory name either
starts with the reserved `.` marker or splits on `|` into exactly two
(possibly empty) components; a non-reserved name with exactly two components
yields precisely the parsed Program, and any other component count is a
malformed-catalog error that aborts the scan. -/
theorem C3_catalog_parse (pfxHome : String) (dirs : List String) (d : String) :
    ((all_programs pfxHome dirs).isOk
        = dirs.all (fun e => startsWithDot e || (splitBar e).length == 2))
    ∧ (startsWithDot d = false →
        (∀ n v, splitBar d = [n, v] →
          scanDirs pfxHome [d] = .ok [⟨n, v, pfxHome ++ "/" ++ d⟩])
        ∧ ((splitBar d).length ≠ 2 → scanDirs pfxHome [d] = .error d)) := by
  constructor
  · rw [all_programs, scanDirs_isOk, all_insertionSort]
  · intro hd
    constructor
    · intro n v hsplit
      simp [scanDirs, hd, hsplit]
    · intro hlen
      rcases hsplit : splitBar d with _ | ⟨n, _ | ⟨v, _ | _⟩⟩
      · simp [scanDirs, hd, hsplit]
      · simp [scanDirs, hd, hsplit]
      · exact absurd (by rw [hsplit]; rfl) hlen
      · simp [scanDirs, hd, hsplit]

/-- C3 (witness): concrete instantiation — the well-formed name `a|1` in a
catalog together with a reserved `.work` entry scans successfully, and the
name parses to `Program("a", "1")`. -/
theorem C3_catalog_parse_witness :
    startsWithDot "a|1" = false
    ∧ splitBar "a|1" = ["a", "1"]
    ∧ (splitBar "ab").length ≠ 2
    ∧ scanDirs "h" ["a|1"] = .ok [⟨"a", "1", "h/a|1"⟩]
    ∧ scanDirs "h" ["ab"] = .error "ab" :=
  ⟨rfl, rfl, by decide,
    ((C3_catalog_parse "h" [] "a|1").2 rfl).1 "a" "1" rfl,
    ((C3_catalog_parse "h" [] "ab").2 rfl).2 (by decide)⟩

/-- C5 (witness): with catalog `[(A,1), (B,1)]`, `A` both excluded and
overridden, the surviving entry `(B,1)` of the lower sequence is not named
`A`. -/
theorem C5_exclusion_dominance_witness :
    ("A" ∈ (⟨[("A", "2")], ["A"]⟩ : PfxConfig).excluded
      ∧ (((⟨[("A", "2")], ["A"]⟩ : PfxConfig).overrides.lookup "A").isSome = true)
      ∧ (⟨"B", "1", "pB1"⟩ : Program)
          ∈ resolveLower [(⟨"A", "1", "pA1"⟩ : Program), ⟨"B", "1", "pB1"⟩]
              ⟨[("A", "2")], ["A"]⟩ none)
    ∧ Program.name ⟨"B", "1", "pB1"⟩ ≠ "A" :=
  ⟨⟨by decide, rfl, by decide⟩,
    C5_exclusion_dominance [(⟨"A", "1", "pA1"⟩ : Program), ⟨"B", "1", "pB1"⟩]
      ⟨[("A", "2")], ["A"]⟩ none "A" ⟨"B", "1", "pB1"⟩ (by decide) rfl (by decide)⟩

/-- C6 (witness): the specification's install scenario — catalog
`[(A,1), (B,1)]`, empty config, upper `(A,2)` — has lower sequence
`[(B,1)]`, whose entry is not named `A`. -/
theorem C6_upper_exclusivity_witness :
    ((⟨"B", "1", "pB1"⟩ : Program)
        ∈ resolveLower [(⟨"A", "1", "pA1"⟩ : Program), ⟨"B", "1", "pB1"⟩]
            ⟨[], []⟩ (some ⟨"A", "2", "pA2"⟩)
      ∧ resolveLower [(⟨"A", "1", "pA1"⟩ : Program), ⟨"B", "1", "pB1"⟩]
            ⟨[], []⟩ (some ⟨"A", "2", "pA2"⟩) = [⟨"B", "1", "pB1"⟩])
    ∧ Program.name ⟨"B", "1", "pB1"⟩ ≠ Program.name ⟨"A", "2", "pA2"⟩ :=
  ⟨⟨by decide, rfl⟩,
    C6_upper_exclusivity [(⟨"A", "1", "pA1"⟩ : Program), ⟨"B", "1", "pB1"⟩]
      ⟨[], []⟩ ⟨"A", "2", "pA2"⟩ ⟨"B", "1", "pB1"⟩ (by decide)⟩

/-- C7: the single mount invocation receives one `lowerdir=` option whose
value is the colon-join of the fixed dummy base directory followed by each
chosen program's path in lower-sequence order (so it always begins with the
dummy base); the `upperdir=`/`workdir=` options (the upper path and the
dedicated work directory) are present exactly when `upper` is, and the
command ends with the prefix target. -/
theorem C7_mount_command (pfxHome : String) (lower : List Program)
    (upper : Option Program) :
    (mountCommand pfxHome lower upper
      = ["fuse-overlayfs", "-o",
          "lowerdir=" ++ colonJoin (pfx_path_lower pfxHome :: lower.map (fun p => p.path))]
        ++ (match upper with
            | some u => ["-o", "upperdir=" ++ u.path,
                          "-o", "workdir=" ++ pfx_path_work pfxHome]
            | none => [])
        ++ [pfx_prefix_path pfxHome])
    ∧ (∃ r, colonJoin (pfx_path_lower pfxHome :: lower.map (fun p => p.path))
          = pfx_path_lower pfxHome ++ r) := by
  constructor
  · unfold mountCommand
    cases upper <;> simp
  · exact colonJoin_cons _ _

/-- C8: the unmount step of `remount` is issued with `check=False`, so the
remount outcome never depends on the unmount call's exit status: for every
exit-status oracle under which the mount command succeeds — in particular
oracles that report the unmount as failed, as happens when nothing is
mounted — the whole call sequence succeeds. -/
theorem C8_unmount_best_effort (pfxHome : String) (catalog : List Program)
    (config : PfxConfig) (upper : Option Program) (fails : List String → Bool)
    (hmount : fails (mountCommand pfxHome (resolveLower catalog config upper) upper)
        = false) :
    ((remountCalls pfxHome catalog config upper).head?.map ProcCall.check
        = some false)
    ∧ runCalls fails (remountCalls pfxHome catalog config upper) = .ok () := by
  refine ⟨rfl, ?_⟩
  simp [remountCalls, runCalls, hmount]

/-- C8 (witness): an oracle that fails exactly the `fusermount -u` call (the
already-unmounted case) still lets `remount`'s call sequence complete. -/
theorem C8_unmount_best_effort_witness :
    ((fun cmd => cmd == ["fusermount", "-u", "h/.prefix"])
        (mountCommand "h" (resolveLower [] ⟨[], []⟩ none) none) = false)
    ∧ ((fun cmd => cmd == ["fusermount", "-u", "h/.prefix"])
        ["fusermount", "-u", pfx_prefix_path "h"] = true)
    ∧ runCalls (fun cmd => cmd == ["fusermount", "-u", "h/.prefix"])
        (remountCalls "h" [] ⟨[], []⟩ none) = .ok () :=
  ⟨by decide, by decide,
    (C8_unmount_best_effort "h" [] ⟨[], []⟩ none
      (fun cmd => cmd == ["fusermount", "-u", "h/.prefix"]) (by decide)).2⟩

/-- C9: loading a persisted configuration record and saving it again without
mutation reproduces a semantically equivalent record: the overrides mapping
is reproduced exactly, and the excluded names are preserved as a set (the
serialization order and duplicates of the excluded list are insignificant);
symmetrically, saving and re-loading an in-memory config preserves its
overrides and the membership of its excluded set. -/
theorem C9_config_roundtrip (j : JsonConfig) (c : PfxConfig) :
    ((saveConfig (loadConfig j)).overrides = j.overrides
      ∧ ∀ s, s ∈ (saveConfig (loadConfig j)).excluded ↔ s ∈ j.excluded)
    ∧ ((loadConfig (saveConfig c)).overrides = c.overrides
      ∧ ∀ s, s ∈ (loadConfig (saveConfig c)).excluded ↔ s ∈ c.excluded) := by
  refine ⟨⟨rfl, ?_⟩, rfl, ?_⟩
  · intro s
    show s ∈ setOfList j.excluded ↔ s ∈ j.excluded
    rw [setOfList, setOfList_mem]
    simp
  · intro s
    show s ∈ setOfList c.excluded ↔ s ∈ c.excluded
    rw [setOfList, setOfList_mem]
    simp

/-- C10: invoking `unset` for a name with no override raises the `KeyError`
of the unguarded `del config.overrides[program]`: the command errors out
before any remount, and since the exception propagates through the
`pfx_config` context manager before its post-`yield` code, the
configuration file is never written back (the ok-trace with its trailing
save event never materializes). -/
theorem C10_unset_missing_override (pfxHome : String) (catalog : List Program)
    (file : Option JsonConfig) (program : String)
    (h : ((pfx_config_load file).overrides.lookup program) = none) :
    unsetCmd pfxHome catalog file program = .error ("KeyError: " ++ program) := by
  unfold unsetCmd withPfxConfig
  simp [h]

/-- C10 (witness): `unset A` against an on-disk config with empty overrides
raises `KeyError` and produces no save event. -/
theorem C10_unset_missing_override_witness :
    (((pfx_config_load (some ⟨[], []⟩)).overrides.lookup "A") = none)
    ∧ unsetCmd "h" [] (some ⟨[], []⟩) "A" = .error ("KeyError: " ++ "A") :=
  ⟨rfl, C10_unset_missing_override "h" [] (some ⟨[], []⟩) "A" rfl⟩
